import Mathlib

/-!
Shallow embedding of the ELT air-quality pipeline
(`dags/elt_air_quality/tools/utils.py`, `tools/schemas.py`, `air_quality.py`).

The pandas dataframe built by `enrich_raw_data` is embedded column-wise as an
association list from column names to lists of cell values; JSON numbers and
doubles are embedded as rationals, timestamps as integer nanosecond counts
since the POSIX epoch (the unit pandas uses), and calendar dates as integer
day counts since the epoch.  The persisted DuckDB table `raw.air_quality_raw`
is embedded as a list of typed rows; SQL NULL is `Option.none`.
-/

namespace AirQuality

/-- A scalar cell value: JSON / pandas scalars as they flow through the
pipeline.  `tstamp` is a UTC instant in nanoseconds since the epoch (a parsed
`pd.Timestamp`, the denotation of an ISO time string from the payload);
`date` is a calendar day as days since the epoch. -/
inductive Value where
  | null : Value
  | num : ℚ → Value
  | str : String → Value
  | tstamp : Int → Value
  | date : Int → Value
deriving DecidableEq, Repr

/-- Errors raised during the transform step: pandas raises `ValueError` when
the dict arrays have unequal lengths, `KeyError` when a required column is
absent, and a parse error when a `time` entry is not a timestamp.  The spec
groups all of these as `TransformError`. -/
inductive TransformError where
  | shape : TransformError
  | missingColumn : TransformError
  | badTime : TransformError
deriving DecidableEq, Repr

/-- A raw API payload: the `hourly` block (field name to value array, in JSON
object order; keys of a JSON object are distinct) together with the optional
top-level scalars read with `payload.get(...)` in `enrich_raw_data`. -/
structure Payload where
  hourly : List (String × List Value)
  latitude : Option Value
  longitude : Option Value
  timezone : Option Value
deriving DecidableEq, Repr

/-- `CITY` constant from `tools/utils.py`. -/
def CITY : String := "Paris"

/-- `COLUMN_ORDER` from `tools/schemas.py`. -/
def COLUMN_ORDER : List String :=
  ["time", "pm10", "pm2_5", "uv_index", "latitude", "longitude",
   "timezone", "city", "date", "execution_time"]

/-- The column names of the `CREATE TABLE` statement in
`ensure_air_quality_table` (`tools/utils.py`), transcribed in DDL order. -/
def createTableColumns : List String :=
  ["time", "pm10", "pm2_5", "uv_index", "latitude", "longitude",
   "timezone", "city", "date", "execution_time"]

/-- The column projection `dataframe[list(columns)]` applied by
`load_dataframe` before its positional insert; the call site in the `load`
task passes no override, so the default argument `COLUMN_ORDER` is used. -/
def loadColumns : List String := COLUMN_ORDER

/-- `pd.DataFrame(payload["hourly"])` column lookup (`dataframe[c]`):
the value list of the first column named `c`. -/
def getCols : List (String × List Value) → String → Option (List Value)
  | [], _ => none
  | p :: rest, c => if p.1 = c then some p.2 else getCols rest c

/-- Column assignment `dataframe[c] = vs`: replace the existing column in
place, or append a new column at the end (pandas semantics for unique column
labels). -/
def setCols : List (String × List Value) → String → List Value → List (String × List Value)
  | [], c, vs => [(c, vs)]
  | p :: rest, c, vs => if p.1 = c then (c, vs) :: rest else p :: setCols rest c vs

/-- All value arrays of the `hourly` dict have equal length
(otherwise `pd.DataFrame` raises). -/
def equalLens (h : List (String × List Value)) : Bool :=
  match h with
  | [] => true
  | p :: _ => h.all (fun q => q.2.length == p.2.length)

/-- `pd.DataFrame(payload["hourly"])`: the column store itself, after the
equal-length shape check. -/
def mkDF (h : List (String × List Value)) : Except TransformError (List (String × List Value)) :=
  if equalLens h then Except.ok h else Except.error TransformError.shape

/-- The number of rows of the column store (the index length; with the
equal-length invariant this is any column's length). -/
def nrows : List (String × List Value) → Nat
  | [] => 0
  | p :: _ => p.2.length

/-- `pd.to_datetime(column, utc=True)`: every entry must denote a UTC
instant.  Time strings are embedded by their denotation, so a parseable
entry is a `Value.tstamp` and anything else fails the parse. -/
def parseTimes : List Value → Option (List Value)
  | [] => some []
  | v :: vs =>
    match v with
    | Value.tstamp t => (parseTimes vs).map (fun r => Value.tstamp t :: r)
    | _ => none

/-- Nanoseconds per second and per day (pandas timestamps count
nanoseconds). -/
def nsPerSecond : Int := 1000000000

/-- Nanoseconds per day. -/
def nsPerDay : Int := 86400 * 1000000000

/-- `series.dt.date`: the UTC calendar day of a timestamp (floor division,
matching the civil calendar also for instants before the epoch). -/
def dateValue : Value → Value
  | Value.tstamp t => Value.date (t.ediv nsPerDay)
  | _ => Value.null

/-- `payload.get(key)`: a missing key becomes a null column. -/
def ofOpt : Option Value → Value
  | none => Value.null
  | some v => v

/-- Column projection `dataframe[list(columns)]`: requires every requested
column to exist (KeyError otherwise) and returns them in the requested
order; columns not requested are silently dropped. -/
def selectCols (h : List (String × List Value)) (columns : List String) :
    Except TransformError (List (String × List Value)) :=
  if columns.all (fun c => (getCols h c).isSome)
  then Except.ok (columns.map (fun c => (c, (getCols h c).getD [])))
  else Except.error TransformError.missingColumn

/-- Keep-mask for `drop_duplicates(subset=["time"])` with the pandas default
keep="first": position `i` is kept when the key value at `i` has not been
seen at an earlier position. -/
def firstMask (seen : List Value) : List Value → List Bool
  | [] => []
  | v :: vs => (!seen.contains v) :: firstMask (v :: seen) vs

/-- Filter a list of cells (or of whole rows) by a row keep-mask. -/
def maskFilter {α : Type} : List Bool → List α → List α
  | b :: bs, v :: vs => if b then v :: maskFilter bs vs else maskFilter bs vs
  | _, _ => []

/-- `drop_duplicates(subset=["time"])`: filter every column by the
first-occurrence mask of the key column. -/
def dropDupBy (key : List Value) (df : List (String × List Value)) :
    List (String × List Value) :=
  df.map (fun p => (p.1, maskFilter (firstMask [] key) p.2))

/-- `enrich_raw_data` (`tools/utils.py`) before the final projection: build
the dataframe from the `hourly` dict, parse the `time` column, derive
`date`, broadcast the scalar fields `latitude`, `longitude`, `timezone`, the
`CITY` constant and the per-run execution timestamp across all rows, in
source order. -/
def enrichWide (p : Payload) (executionTs : Int) :
    Except TransformError (List (String × List Value)) :=
  match mkDF p.hourly with
  | Except.error e => Except.error e
  | Except.ok df0 =>
    match getCols df0 "time" with
    | none => Except.error TransformError.missingColumn
    | some raw =>
      match parseTimes raw with
      | none => Except.error TransformError.badTime
      | some times =>
        let n := nrows df0
        let df1 := setCols df0 "time" times
        let df2 := setCols df1 "date" (times.map dateValue)
        let df3 := setCols df2 "latitude" (List.replicate n (ofOpt p.latitude))
        let df4 := setCols df3 "longitude" (List.replicate n (ofOpt p.longitude))
        let df5 := setCols df4 "timezone" (List.replicate n (ofOpt p.timezone))
        let df6 := setCols df5 "city" (List.replicate n (Value.str CITY))
        Except.ok (setCols df6 "execution_time" (List.replicate n (Value.tstamp executionTs)))

/-- `enrich_raw_data` (`tools/utils.py`): enrichment followed by
`dataframe[list(columns)].drop_duplicates(subset=["time"])`. -/
def enrich_raw_data (p : Payload) (executionTs : Int) (columns : List String) :
    Except TransformError (List (String × List Value)) :=
  match enrichWide p executionTs with
  | Except.error e => Except.error e
  | Except.ok df =>
    match selectCols df columns with
    | Except.error e => Except.error e
    | Except.ok sel =>
      match getCols sel "time" with
      | none => Except.error TransformError.missingColumn
      | some key => Except.ok (dropDupBy key sel)

/-- The source columns that `enrich_raw_data` needs to find in the `hourly`
block: `time` is read explicitly, and the three metrics are demanded by the
final projection onto `COLUMN_ORDER` (all the other canonical columns are
added by the enrichment itself). -/
def requiredSourceCols : List String := ["time", "pm10", "pm2_5", "uv_index"]

/-- Is the cell a parsed timestamp? -/
def Value.isTstamp : Value → Bool
  | Value.tstamp _ => true
  | _ => false

/-- The `time` array of the `hourly` block. -/
def hourlyTimes (p : Payload) : List Value :=
  (getCols p.hourly "time").getD []

/-- Well-formedness of the `hourly` block, as the RawPayload data model
fixes it: distinct field names (a JSON object), equal-length value arrays,
the required source columns present, and every `time` entry a parseable
timestamp. -/
def hourlyWF (h : List (String × List Value)) : Bool :=
  decide (h.map Prod.fst).Nodup &&
  equalLens h &&
  requiredSourceCols.all (fun c => (getCols h c).isSome) &&
  ((getCols h "time").getD []).all Value.isTstamp

/-- Reference first-occurrence deduplication on a key list: keep the head,
delete every later occurrence of the same key.  This is the order the
claims mean by "keeping the first occurrence in source order". -/
def keepFirst : List Value → List Value
  | [] => []
  | v :: vs => v :: keepFirst (vs.filter (fun x => x ≠ v))
termination_by l => l.length
decreasing_by simp only [List.length_cons]; exact Nat.lt_succ_of_le (List.length_filter_le _ _)

/-- Reference first-occurrence deduplication on keyed rows: keep the first
row carrying each key, delete every later row with the same key. -/
def keepFirstRows : List (Value × Value) → List (Value × Value)
  | [] => []
  | r :: rs => r :: keepFirstRows (rs.filter (fun x => x.1 ≠ r.1))
termination_by l => l.length
decreasing_by simp only [List.length_cons]; exact Nat.lt_succ_of_le (List.length_filter_le _ _)

/-- Scan form of first-occurrence deduplication, accumulating the keys
already seen; this is what the keep-mask filter computes. -/
def keepFirstFrom (seen : List Value) : List Value → List Value
  | [] => []
  | v :: vs =>
    if seen.contains v then keepFirstFrom seen vs
    else v :: keepFirstFrom (v :: seen) vs

/-- Scan form of first-occurrence deduplication of keyed rows. -/
def keepFirstRowsFrom (seen : List Value) : List (Value × Value) → List (Value × Value)
  | [] => []
  | r :: rs =>
    if seen.contains r.1 then keepFirstRowsFrom seen rs
    else r :: keepFirstRowsFrom (r.1 :: seen) rs

/-- One persisted row of `raw.air_quality_raw` as created by
`ensure_air_quality_table`: `time` is the primary key (hence NOT NULL);
every other column is nullable (`Option`).  Doubles are embedded as
rationals, timestamps as nanosecond counts, dates as day counts. -/
structure Row where
  time : Int
  pm10 : Option ℚ
  pm2_5 : Option ℚ
  uv_index : Option ℚ
  latitude : Option ℚ
  longitude : Option ℚ
  timezone : Option String
  city : Option String
  date : Option Int
  execution_time : Option Int
deriving DecidableEq, Repr

/-- The `ValueError` raised by each data-quality task in `air_quality.py`,
carrying what the message interpolates: the offending
`(date, rows_count, distinct_times)` tuples, the null-row count, or the
per-metric violation counts. -/
inductive QualityError where
  | completeness : List (Option Int × Nat × Nat) → QualityError
  | nulls : Nat → QualityError
  | ranges : List (String × Nat) → QualityError
deriving DecidableEq, Repr

/-- One step of `INSERT OR REPLACE`: a row whose primary key `time` is
already present replaces the existing row in place; otherwise the row is
appended. -/
def upsertRow (tbl : List Row) (r : Row) : List Row :=
  if tbl.any (fun x => x.time == r.time)
  then tbl.map (fun x => if x.time == r.time then r else x)
  else tbl ++ [r]

/-- `INSERT OR REPLACE INTO schema.table SELECT * FROM view`: upsert every
row of the batch, in batch order. -/
def upsertBatch (tbl : List Row) (batch : List Row) : List Row :=
  batch.foldl upsertRow tbl

/-- `load_dataframe` (`tools/utils.py`): upsert the batch into the table and
return the table state together with `SELECT COUNT(*)` evaluated after the
insert.  The column projection `dataframe[list(columns)]` is the identity at
this typed-row level; its column-name content is `loadColumns`. -/
def load_dataframe (tbl : List Row) (batch : List Row) : List Row × Nat :=
  let updated := upsertBatch tbl batch
  (updated, updated.length)

/-- The rows of the table belonging to one `GROUP BY date` group. -/
def rowsForDate (tbl : List Row) (d : Option Int) : List Row :=
  tbl.filter (fun r => r.date = d)

/-- `COUNT(DISTINCT time)` within one date group. -/
def distinctTimes (tbl : List Row) (d : Option Int) : Nat :=
  ((rowsForDate tbl d).map Row.time).dedup.length

/-- The distinct `date` values of the table, in first-appearance order
(the `GROUP BY 1` keys). -/
def distinctDates (tbl : List Row) : List (Option Int) :=
  (tbl.map Row.date).dedup

/-- The result set of the completeness query: for every date group, its row
count and distinct-`time` count, kept when the `HAVING` clause
`rows_count != 24 OR distinct_times != 24` holds. -/
def completenessFailures (tbl : List Row) : List (Option Int × Nat × Nat) :=
  (distinctDates tbl).filterMap (fun d =>
    let rc := (rowsForDate tbl d).length
    let dt := distinctTimes tbl d
    if rc ≠ 24 ∨ dt ≠ 24 then some (d, rc, dt) else none)

/-- `check_completeness` (`air_quality.py`): raise listing the offending
tuples when the result set is non-empty. -/
def check_completeness (tbl : List Row) : Except QualityError Unit :=
  if (completenessFailures tbl).isEmpty
  then Except.ok ()
  else Except.error (QualityError.completeness (completenessFailures tbl))

/-- The `WHERE` clause of `check_not_nulls`: some critical column of the row
is NULL. -/
def criticalNull (r : Row) : Bool :=
  r.pm10.isNone || r.pm2_5.isNone || r.uv_index.isNone || r.latitude.isNone ||
  r.longitude.isNone || r.timezone.isNone || r.city.isNone

/-- `check_not_nulls` (`air_quality.py`): count the rows with a NULL in a
critical column and raise when the count is positive. -/
def check_not_nulls (tbl : List Row) : Except QualityError Unit :=
  let count := (tbl.filter criticalNull).length
  if count > 0 then Except.error (QualityError.nulls count) else Except.ok ()

/-- `WHERE pm10 < 0 OR pm10 > 500`: SQL three-valued comparison, so a NULL
value never satisfies the clause. -/
def pm10Outside (r : Row) : Bool :=
  match r.pm10 with
  | some q => decide (q < 0) || decide (q > 500)
  | none => false

/-- `WHERE pm2_5 < 0 OR pm2_5 > 500`. -/
def pm25Outside (r : Row) : Bool :=
  match r.pm2_5 with
  | some q => decide (q < 0) || decide (q > 500)
  | none => false

/-- `WHERE uv_index < 0 OR uv_index > 15`. -/
def uvOutside (r : Row) : Bool :=
  match r.uv_index with
  | some q => decide (q < 0) || decide (q > 15)
  | none => false

/-- The `results` dict of `check_ranges`: per-metric violation counts, in
query order. -/
def rangeViolations (tbl : List Row) : List (String × Nat) :=
  [("pm10", (tbl.filter pm10Outside).length),
   ("pm2_5", (tbl.filter pm25Outside).length),
   ("uv_index", (tbl.filter uvOutside).length)]

/-- `check_ranges` (`air_quality.py`): keep the metrics with a positive
count and raise when any remain. -/
def check_ranges (tbl : List Row) : Except QualityError Unit :=
  let failures := (rangeViolations tbl).filter (fun p => p.2 > 0)
  if failures.isEmpty then Except.ok () else Except.error (QualityError.ranges failures)

/-- The `enrich` task of `air_quality.py` serializes each record with
`strftime("%Y-%m-%dT%H:%M:%SZ")` on `time` and `execution_time` and
`astype(str)` on `date`.  The format has no sub-second field, so the emitted
string denotes the floor of the instant to whole seconds; since the format
is injective on civil datetimes, the string is embedded by that denoted
POSIX second count.  `date` strings round-trip to the same day. -/
def serializeRecord (r : Row) : Row :=
  { r with time := r.time.ediv nsPerSecond,
           execution_time := r.execution_time.map (fun t => t.ediv nsPerSecond) }

/-- The `load` task of `air_quality.py` parses the strings back with
`pd.to_datetime(..., utc=True)` (yielding the denoted instant at nanosecond
resolution) and `pd.to_datetime(...).dt.date` on `date` (the identity on the
day count). -/
def parseRecord (r : Row) : Row :=
  { r with time := r.time * nsPerSecond,
           execution_time := r.execution_time.map (fun t => t * nsPerSecond) }

/-! ### Column-store lemmas -/

theorem getCols_setCols_self (h : List (String × List Value)) (c : String) (vs : List Value) :
    getCols (setCols h c vs) c = some vs := by
  induction h with
  | nil => simp [setCols, getCols]
  | cons p rest ih =>
    by_cases hp : p.1 = c
    · simp [setCols, hp, getCols]
    · simp [setCols, hp, getCols, ih]

theorem getCols_setCols_ne (h : List (String × List Value)) (c c' : String) (vs : List Value)
    (hne : c' ≠ c) : getCols (setCols h c vs) c' = getCols h c' := by
  induction h with
  | nil => simp [setCols, getCols, Ne.symm hne]
  | cons p rest ih =>
    by_cases hp : p.1 = c
    · simp [setCols, hp, getCols, Ne.symm hne]
    · simp [setCols, hp, getCols, ih]

theorem getCols_mem (h : List (String × List Value)) (c : String) (vs : List Value)
    (hg : getCols h c = some vs) : (c, vs) ∈ h := by
  induction h with
  | nil => simp [getCols] at hg
  | cons p rest ih =>
    obtain ⟨a, b⟩ := p
    by_cases hp : a = c
    · subst hp
      simp only [getCols, if_pos] at hg
      injection hg with hb
      subst hb
      exact List.mem_cons_self _ _
    · simp only [getCols] at hg
      rw [if_neg hp] at hg
      exact List.mem_cons_of_mem _ (ih hg)

theorem equalLens_len (h : List (String × List Value)) (heq : equalLens h = true)
    {c1 c2 : String} {v1 v2 : List Value}
    (h1 : (c1, v1) ∈ h) (h2 : (c2, v2) ∈ h) : v1.length = v2.length := by
  cases h with
  | nil => cases h1
  | cons p rest =>
    simp only [equalLens, List.all_eq_true] at heq
    have e1 := heq _ h1
    have e2 := heq _ h2
    simp only [beq_iff_eq] at e1 e2
    omega

/-! ### First-occurrence deduplication lemmas -/

theorem keepFirstFrom_cons_mem (seen : List Value) (v : Value) (vs : List Value)
    (hs : v ∈ seen) : keepFirstFrom seen (v :: vs) = keepFirstFrom seen vs := by
  simp [keepFirstFrom, hs]

theorem keepFirstFrom_cons_not_mem (seen : List Value) (v : Value) (vs : List Value)
    (hs : v ∉ seen) : keepFirstFrom seen (v :: vs) = v :: keepFirstFrom (v :: seen) vs := by
  simp [keepFirstFrom, hs]

theorem mem_keepFirstFrom (seen ts : List Value) (x : Value) :
    x ∈ keepFirstFrom seen ts ↔ x ∈ ts ∧ ¬ x ∈ seen := by
  induction ts generalizing seen with
  | nil => simp [keepFirstFrom]
  | cons v vs ih =>
    by_cases hs : v ∈ seen
    · rw [keepFirstFrom_cons_mem seen v vs hs, ih]
      simp only [List.mem_cons]
      constructor
      · rintro ⟨hx, hn⟩; exact ⟨Or.inr hx, hn⟩
      · rintro ⟨hx | hx, hn⟩
        · subst hx; exact absurd hs hn
        · exact ⟨hx, hn⟩
    · rw [keepFirstFrom_cons_not_mem seen v vs hs]
      simp only [List.mem_cons, ih]
      constructor
      · rintro (rfl | ⟨hx, hn⟩)
        · exact ⟨Or.inl rfl, hs⟩
        · simp only [List.mem_cons, not_or] at hn
          exact ⟨Or.inr hx, hn.2⟩
      · rintro ⟨hx | hx, hn⟩
        · exact Or.inl hx
        · by_cases hxv : x = v
          · exact Or.inl hxv
          · refine Or.inr ⟨hx, ?_⟩
            simp only [List.mem_cons, not_or]
            exact ⟨hxv, hn⟩

theorem nodup_keepFirstFrom (seen ts : List Value) :
    (keepFirstFrom seen ts).Nodup := by
  induction ts generalizing seen with
  | nil => simp [keepFirstFrom]
  | cons v vs ih =>
    by_cases hs : v ∈ seen
    · rw [keepFirstFrom_cons_mem seen v vs hs]
      exact ih seen
    · rw [keepFirstFrom_cons_not_mem seen v vs hs]
      refine List.nodup_cons.mpr ⟨fun hmem => ?_, ih _⟩
      rw [mem_keepFirstFrom] at hmem
      exact hmem.2 (List.mem_cons_self _ _)

theorem length_keepFirstFrom_nil (ts : List Value) :
    (keepFirstFrom [] ts).length = ts.dedup.length := by
  have hnd : (keepFirstFrom [] ts).Nodup := nodup_keepFirstFrom [] ts
  have hmem : ∀ x, x ∈ keepFirstFrom [] ts ↔ x ∈ ts := by
    intro x
    rw [mem_keepFirstFrom]
    simp
  have htf : (keepFirstFrom [] ts).toFinset = ts.toFinset := by
    ext x
    simp [List.mem_toFinset, hmem]
  calc (keepFirstFrom [] ts).length
      = (keepFirstFrom [] ts).toFinset.card := (List.toFinset_card_of_nodup hnd).symm
    _ = ts.toFinset.card := by rw [htf]
    _ = ts.dedup.length := List.card_toFinset ts

theorem keepFirstFrom_eq_keepFirst (seen ts : List Value) :
    keepFirstFrom seen ts = keepFirst (ts.filter (fun x => !seen.contains x)) := by
  induction ts generalizing seen with
  | nil => simp [keepFirstFrom, keepFirst]
  | cons v vs ih =>
    by_cases hs : v ∈ seen
    · rw [keepFirstFrom_cons_mem seen v vs hs]
      rw [show (v :: vs).filter (fun x => !seen.contains x) =
            vs.filter (fun x => !seen.contains x) from by simp [List.filter_cons, hs]]
      exact ih seen
    · rw [keepFirstFrom_cons_not_mem seen v vs hs]
      rw [show (v :: vs).filter (fun x => !seen.contains x) =
            v :: vs.filter (fun x => !seen.contains x) from by simp [List.filter_cons, hs]]
      rw [keepFirst]
      congr 1
      rw [ih (v :: seen)]
      congr 1
      rw [List.filter_filter]
      apply List.filter_congr
      intro x _
      by_cases hxv : x = v
      · subst hxv
        simp
      · by_cases hxs : x ∈ seen <;> simp [hxv, hxs, Ne.symm hxv]

theorem keepFirst_eq_scan (ts : List Value) :
    keepFirst ts = keepFirstFrom [] ts := by
  rw [keepFirstFrom_eq_keepFirst]
  simp

theorem keepFirstFrom_seen_dup (seen : List Value) (v : Value) (vs : List Value)
    (hs : v ∈ seen) : keepFirstFrom (v :: seen) vs = keepFirstFrom seen vs := by
  rw [keepFirstFrom_eq_keepFirst, keepFirstFrom_eq_keepFirst]
  congr 1
  apply List.filter_congr
  intro x _
  by_cases hxv : x = v
  · subst hxv
    simp [hs]
  · by_cases hxs : x ∈ seen <;> simp [hxv, hxs]

theorem maskFilter_firstMask (seen : List Value) (ts : List Value) :
    maskFilter (firstMask seen ts) ts = keepFirstFrom seen ts := by
  induction ts generalizing seen with
  | nil => simp [firstMask, maskFilter, keepFirstFrom]
  | cons v vs ih =>
    by_cases hs : v ∈ seen
    · rw [keepFirstFrom_cons_mem seen v vs hs, ← keepFirstFrom_seen_dup seen v vs hs]
      simp [firstMask, maskFilter, hs, ih]
    · rw [keepFirstFrom_cons_not_mem seen v vs hs]
      simp [firstMask, maskFilter, hs, ih]

theorem keepFirstRowsFrom_cons_mem (seen : List Value) (r : Value × Value)
    (rs : List (Value × Value)) (hs : r.1 ∈ seen) :
    keepFirstRowsFrom seen (r :: rs) = keepFirstRowsFrom seen rs := by
  simp [keepFirstRowsFrom, hs]

theorem keepFirstRowsFrom_cons_not_mem (seen : List Value) (r : Value × Value)
    (rs : List (Value × Value)) (hs : r.1 ∉ seen) :
    keepFirstRowsFrom seen (r :: rs) = r :: keepFirstRowsFrom (r.1 :: seen) rs := by
  simp [keepFirstRowsFrom, hs]

theorem keepFirstRowsFrom_eq_keepFirstRows (seen : List Value) (rs : List (Value × Value)) :
    keepFirstRowsFrom seen rs = keepFirstRows (rs.filter (fun x => !seen.contains x.1)) := by
  induction rs generalizing seen with
  | nil => simp [keepFirstRowsFrom, keepFirstRows]
  | cons r rest ih =>
    by_cases hs : r.1 ∈ seen
    · rw [keepFirstRowsFrom_cons_mem seen r rest hs]
      rw [show (r :: rest).filter (fun x => !seen.contains x.1) =
            rest.filter (fun x => !seen.contains x.1) from by simp [List.filter_cons, hs]]
      exact ih seen
    · rw [keepFirstRowsFrom_cons_not_mem seen r rest hs]
      rw [show (r :: rest).filter (fun x => !seen.contains x.1) =
            r :: rest.filter (fun x => !seen.contains x.1) from by simp [List.filter_cons, hs]]
      rw [keepFirstRows]
      congr 1
      rw [ih (r.1 :: seen)]
      congr 1
      rw [List.filter_filter]
      apply List.filter_congr
      intro x _
      by_cases hxr : x.1 = r.1
      · simp [hxr]
      · by_cases hxs : x.1 ∈ seen <;> simp [hxr, hxs, Ne.symm hxr]

theorem keepFirstRows_eq_scan (rs : List (Value × Value)) :
    keepFirstRows rs = keepFirstRowsFrom [] rs := by
  rw [keepFirstRowsFrom_eq_keepFirstRows]
  simp

theorem keepFirstRowsFrom_seen_dup (seen : List Value) (v : Value)
    (rs : List (Value × Value)) (hs : v ∈ seen) :
    keepFirstRowsFrom (v :: seen) rs = keepFirstRowsFrom seen rs := by
  rw [keepFirstRowsFrom_eq_keepFirstRows, keepFirstRowsFrom_eq_keepFirstRows]
  congr 1
  apply List.filter_congr
  intro x _
  by_cases hxv : x.1 = v
  · simp [hxv, hs]
  · by_cases hxs : x.1 ∈ seen <;> simp [hxv, hxs]

theorem maskFilter_firstMask_rows (seen : List Value) (rs : List (Value × Value)) :
    maskFilter (firstMask seen (rs.map Prod.fst)) rs = keepFirstRowsFrom seen rs := by
  induction rs generalizing seen with
  | nil => simp [firstMask, maskFilter, keepFirstRowsFrom]
  | cons r rest ih =>
    by_cases hs : r.1 ∈ seen
    · rw [keepFirstRowsFrom_cons_mem seen r rest hs,
          ← keepFirstRowsFrom_seen_dup seen r.1 rest hs]
      simp [firstMask, maskFilter, hs, ih]
    · rw [keepFirstRowsFrom_cons_not_mem seen r rest hs]
      simp [firstMask, maskFilter, hs, ih]

theorem maskFilter_zip {α β : Type} (m : List Bool) (as : List α) (bs : List β)
    (hlen : as.length = bs.length) :
    (maskFilter m as).zip (maskFilter m bs) = maskFilter m (as.zip bs) := by
  induction m generalizing as bs with
  | nil => simp [maskFilter]
  | cons b ms ih =>
    cases as with
    | nil =>
      cases bs with
      | nil => simp [maskFilter]
      | cons y ys => simp at hlen
    | cons x xs =>
      cases bs with
      | nil => simp at hlen
      | cons y ys =>
        simp only [List.length_cons, Nat.succ.injEq] at hlen
        cases b with
        | true =>
          rw [show maskFilter (true :: ms) (x :: xs) = x :: maskFilter ms xs from rfl,
              show maskFilter (true :: ms) (y :: ys) = y :: maskFilter ms ys from rfl,
              show maskFilter (true :: ms) ((x :: xs).zip (y :: ys)) =
                (x, y) :: maskFilter ms (xs.zip ys) from rfl,
              List.zip_cons_cons, ih xs ys hlen]
        | false =>
          rw [show maskFilter (false :: ms) (x :: xs) = maskFilter ms xs from rfl,
              show maskFilter (false :: ms) (y :: ys) = maskFilter ms ys from rfl,
              show maskFilter (false :: ms) ((x :: xs).zip (y :: ys)) =
                maskFilter ms (xs.zip ys) from rfl,
              ih xs ys hlen]

/-! ### Evaluating the transform on a well-formed payload -/

/-- The enriched pre-projection dataframe that `enrichWide` produces on a
well-formed payload (a proof-layer description: on such payloads the `time`
entries parse to themselves, so the column store is the `hourly` block with
the derived and broadcast columns written through `setCols`). -/
def wideDF (p : Payload) (ts : Int) : List (String × List Value) :=
  setCols (setCols (setCols (setCols (setCols (setCols (setCols p.hourly
    "time" (hourlyTimes p))
    "date" ((hourlyTimes p).map dateValue))
    "latitude" (List.replicate (nrows p.hourly) (ofOpt p.latitude)))
    "longitude" (List.replicate (nrows p.hourly) (ofOpt p.longitude)))
    "timezone" (List.replicate (nrows p.hourly) (ofOpt p.timezone)))
    "city" (List.replicate (nrows p.hourly) (Value.str CITY)))
    "execution_time" (List.replicate (nrows p.hourly) (Value.tstamp ts))

/-- The projected dataframe, before deduplication. -/
def selDF (p : Payload) (ts : Int) : List (String × List Value) :=
  COLUMN_ORDER.map (fun c => (c, (getCols (wideDF p ts) c).getD []))

theorem hourlyWF_parts {h : List (String × List Value)} (hwf : hourlyWF h = true) :
    (h.map Prod.fst).Nodup ∧ equalLens h = true ∧
    (∀ c ∈ requiredSourceCols, (getCols h c).isSome = true) ∧
    (∀ v ∈ (getCols h "time").getD [], v.isTstamp = true) := by
  simp only [hourlyWF, Bool.and_eq_true, decide_eq_true_eq, List.all_eq_true] at hwf
  exact ⟨hwf.1.1.1, hwf.1.1.2, hwf.1.2, hwf.2⟩

theorem parseTimes_tstamp (vs : List Value) (hv : ∀ v ∈ vs, v.isTstamp = true) :
    parseTimes vs = some vs := by
  induction vs with
  | nil => rfl
  | cons v rest ih =>
    have hvh := hv v (List.mem_cons_self _ _)
    cases v with
    | tstamp t =>
      have hrest : parseTimes rest = some rest :=
        ih (fun x hx => hv x (List.mem_cons_of_mem _ hx))
      simp [parseTimes, hrest]
    | null => simp [Value.isTstamp] at hvh
    | num q => simp [Value.isTstamp] at hvh
    | str s => simp [Value.isTstamp] at hvh
    | date d => simp [Value.isTstamp] at hvh

theorem getCols_time_eq (p : Payload) (hs : (getCols p.hourly "time").isSome = true) :
    getCols p.hourly "time" = some (hourlyTimes p) := by
  unfold hourlyTimes
  cases hg : getCols p.hourly "time" with
  | none => rw [hg] at hs; simp at hs
  | some vs => simp [hg]

theorem enrichWide_wf (p : Payload) (ts : Int) (hwf : hourlyWF p.hourly = true) :
    enrichWide p ts = Except.ok (wideDF p ts) := by
  obtain ⟨hnd, heq, hreq, htime⟩ := hourlyWF_parts hwf
  have htsome : (getCols p.hourly "time").isSome = true :=
    hreq "time" (by simp [requiredSourceCols])
  have hteq := getCols_time_eq p htsome
  have htime2 : ∀ v ∈ hourlyTimes p, v.isTstamp = true := htime
  simp only [enrichWide, mkDF, heq, if_true, hteq, parseTimes_tstamp _ htime2]
  rfl

theorem getCols_wideDF_time (p : Payload) (ts : Int) :
    getCols (wideDF p ts) "time" = some (hourlyTimes p) := by
  unfold wideDF
  rw [getCols_setCols_ne _ _ _ _ (by decide), getCols_setCols_ne _ _ _ _ (by decide),
      getCols_setCols_ne _ _ _ _ (by decide), getCols_setCols_ne _ _ _ _ (by decide),
      getCols_setCols_ne _ _ _ _ (by decide), getCols_setCols_ne _ _ _ _ (by decide),
      getCols_setCols_self]

theorem getCols_wideDF_date (p : Payload) (ts : Int) :
    getCols (wideDF p ts) "date" = some ((hourlyTimes p).map dateValue) := by
  unfold wideDF
  rw [getCols_setCols_ne _ _ _ _ (by decide), getCols_setCols_ne _ _ _ _ (by decide),
      getCols_setCols_ne _ _ _ _ (by decide), getCols_setCols_ne _ _ _ _ (by decide),
      getCols_setCols_ne _ _ _ _ (by decide), getCols_setCols_self]

theorem getCols_wideDF_latitude (p : Payload) (ts : Int) :
    getCols (wideDF p ts) "latitude" =
      some (List.replicate (nrows p.hourly) (ofOpt p.latitude)) := by
  unfold wideDF
  rw [getCols_setCols_ne _ _ _ _ (by decide), getCols_setCols_ne _ _ _ _ (by decide),
      getCols_setCols_ne _ _ _ _ (by decide), getCols_setCols_ne _ _ _ _ (by decide),
      getCols_setCols_self]

theorem getCols_wideDF_longitude (p : Payload) (ts : Int) :
    getCols (wideDF p ts) "longitude" =
      some (List.replicate (nrows p.hourly) (ofOpt p.longitude)) := by
  unfold wideDF
  rw [getCols_setCols_ne _ _ _ _ (by decide), getCols_setCols_ne _ _ _ _ (by decide),
      getCols_setCols_ne _ _ _ _ (by decide), getCols_setCols_self]

theorem getCols_wideDF_timezone (p : Payload) (ts : Int) :
    getCols (wideDF p ts) "timezone" =
      some (List.replicate (nrows p.hourly) (ofOpt p.timezone)) := by
  unfold wideDF
  rw [getCols_setCols_ne _ _ _ _ (by decide), getCols_setCols_ne _ _ _ _ (by decide),
      getCols_setCols_self]

theorem getCols_wideDF_city (p : Payload) (ts : Int) :
    getCols (wideDF p ts) "city" =
      some (List.replicate (nrows p.hourly) (Value.str CITY)) := by
  unfold wideDF
  rw [getCols_setCols_ne _ _ _ _ (by decide), getCols_setCols_self]

theorem getCols_wideDF_exec (p : Payload) (ts : Int) :
    getCols (wideDF p ts) "execution_time" =
      some (List.replicate (nrows p.hourly) (Value.tstamp ts)) := by
  unfold wideDF
  rw [getCols_setCols_self]

theorem getCols_wideDF_metric (p : Payload) (ts : Int) (c : String)
    (hc : c ∈ requiredSourceCols) (hct : c ≠ "time") :
    getCols (wideDF p ts) c = getCols p.hourly c := by
  simp only [requiredSourceCols, List.mem_cons, List.not_mem_nil, or_false] at hc
  rcases hc with rfl | rfl | rfl | rfl
  · exact absurd rfl hct
  all_goals
    unfold wideDF
    rw [getCols_setCols_ne _ _ _ _ (by decide), getCols_setCols_ne _ _ _ _ (by decide),
        getCols_setCols_ne _ _ _ _ (by decide), getCols_setCols_ne _ _ _ _ (by decide),
        getCols_setCols_ne _ _ _ _ (by decide), getCols_setCols_ne _ _ _ _ (by decide),
        getCols_setCols_ne _ _ _ _ (by decide)]

theorem selectCols_wideDF (p : Payload) (ts : Int) (hwf : hourlyWF p.hourly = true) :
    selectCols (wideDF p ts) COLUMN_ORDER = Except.ok (selDF p ts) := by
  obtain ⟨hnd, heq, hreq, htime⟩ := hourlyWF_parts hwf
  have hall : ∀ c ∈ COLUMN_ORDER, ((getCols (wideDF p ts) c).isSome) = true := by
    intro c hc
    simp only [COLUMN_ORDER, List.mem_cons, List.not_mem_nil, or_false] at hc
    rcases hc with rfl | rfl | rfl | rfl | rfl | rfl | rfl | rfl | rfl | rfl
    · rw [getCols_wideDF_time]; rfl
    · rw [getCols_wideDF_metric p ts _ (by simp [requiredSourceCols]) (by decide)]
      exact hreq "pm10" (by simp [requiredSourceCols])
    · rw [getCols_wideDF_metric p ts _ (by simp [requiredSourceCols]) (by decide)]
      exact hreq "pm2_5" (by simp [requiredSourceCols])
    · rw [getCols_wideDF_metric p ts _ (by simp [requiredSourceCols]) (by decide)]
      exact hreq "uv_index" (by simp [requiredSourceCols])
    · rw [getCols_wideDF_latitude]; rfl
    · rw [getCols_wideDF_longitude]; rfl
    · rw [getCols_wideDF_timezone]; rfl
    · rw [getCols_wideDF_city]; rfl
    · rw [getCols_wideDF_date]; rfl
    · rw [getCols_wideDF_exec]; rfl
  unfold selectCols
  rw [if_pos (by rw [List.all_eq_true]; intro c hc; exact hall c hc)]
  rfl

theorem getCols_selDF_time (p : Payload) (ts : Int) :
    getCols (selDF p ts) "time" = some (hourlyTimes p) := by
  simp [selDF, COLUMN_ORDER, getCols, getCols_wideDF_time]

theorem enrich_wf_eq (p : Payload) (ts : Int) (hwf : hourlyWF p.hourly = true) :
    enrich_raw_data p ts COLUMN_ORDER =
      Except.ok (dropDupBy (hourlyTimes p) (selDF p ts)) := by
  simp only [enrich_raw_data, enrichWide_wf p ts hwf, selectCols_wideDF p ts hwf,
    getCols_selDF_time p ts]

theorem getCols_dropDupBy (key : List Value) (df : List (String × List Value)) (c : String) :
    getCols (dropDupBy key df) c = (getCols df c).map (maskFilter (firstMask [] key)) := by
  induction df with
  | nil => simp [dropDupBy, getCols]
  | cons p rest ih =>
    by_cases hp : p.1 = c
    · simp [dropDupBy, getCols, hp]
    · rw [show dropDupBy key (p :: rest) =
            (p.1, maskFilter (firstMask [] key) p.2) :: dropDupBy key rest from rfl]
      rw [show getCols ((p.1, maskFilter (firstMask [] key) p.2) :: dropDupBy key rest) c =
            getCols (dropDupBy key rest) c from by simp [getCols, hp]]
      rw [show getCols (p :: rest) c = getCols rest c from by simp [getCols, hp]]
      exact ih

theorem mem_maskFilter {α : Type} (m : List Bool) (vs : List α) (x : α)
    (hx : x ∈ maskFilter m vs) : x ∈ vs := by
  induction m generalizing vs with
  | nil => simp [maskFilter] at hx
  | cons b bs ih =>
    cases vs with
    | nil => simp [maskFilter] at hx
    | cons v rest =>
      cases b with
      | true =>
        rw [show maskFilter (true :: bs) (v :: rest) = v :: maskFilter bs rest from rfl] at hx
        rcases List.mem_cons.mp hx with rfl | hx2
        · exact List.mem_cons_self _ _
        · exact List.mem_cons_of_mem _ (ih rest hx2)
      | false =>
        rw [show maskFilter (false :: bs) (v :: rest) = maskFilter bs rest from rfl] at hx
        exact List.mem_cons_of_mem _ (ih rest hx)

/-- The repo's own pytest fixture
(`tests/etl_air_quality/test_utils.py`): three hourly entries, the first two
sharing the same `time`; 2025-11-04T00:00Z is 1762214400 s after the epoch. -/
def samplePayload : Payload :=
  { hourly :=
      [("time", [Value.tstamp (1762214400 * 1000000000),
                 Value.tstamp (1762214400 * 1000000000),
                 Value.tstamp (1762218000 * 1000000000)]),
       ("pm10", [Value.num 10, Value.num 10, Value.num 12]),
       ("pm2_5", [Value.num 5, Value.num 5, Value.num 6]),
       ("uv_index", [Value.num 0, Value.num 0, Value.num (1/10)])],
    latitude := some (Value.num (48566/1000)),
    longitude := some (Value.num (23522/10000)),
    timezone := some (Value.str "Europe/Paris") }

/-- C1: on any payload whose `hourly` block is well-formed (distinct field
names, equal-length arrays, the required source columns present, parseable
`time` entries), `enrich_raw_data` succeeds; the resulting batch has as many
rows as there are distinct `time` values in the input, its `time` column is
the input `time` sequence with later duplicates removed, and for each metric
column the output (time, value) rows are exactly the input rows with every
later row repeating an earlier `time` deleted — the row kept for each `time`
is the first occurrence in source order. -/
theorem enrich_dedup_spec (p : Payload) (executionTs : Int)
    (hwf : hourlyWF p.hourly = true) :
    ∃ df, enrich_raw_data p executionTs COLUMN_ORDER = Except.ok df ∧
      nrows df = (hourlyTimes p).dedup.length ∧
      getCols df "time" = some (keepFirst (hourlyTimes p)) ∧
      ∀ c ∈ ["pm10", "pm2_5", "uv_index"], ∀ vs, getCols p.hourly c = some vs →
        ∃ ws, getCols df c = some ws ∧
          (keepFirst (hourlyTimes p)).zip ws = keepFirstRows ((hourlyTimes p).zip vs) := by
  obtain ⟨hnd, heq, hreq, htime⟩ := hourlyWF_parts hwf
  refine ⟨dropDupBy (hourlyTimes p) (selDF p executionTs),
    enrich_wf_eq p executionTs hwf, ?_, ?_, ?_⟩
  · have hn : nrows (dropDupBy (hourlyTimes p) (selDF p executionTs)) =
        (maskFilter (firstMask [] (hourlyTimes p))
          ((getCols (wideDF p executionTs) "time").getD [])).length := by
      simp [selDF, COLUMN_ORDER, dropDupBy, nrows]
    rw [hn, getCols_wideDF_time]
    simp only [Option.getD_some]
    rw [maskFilter_firstMask]
    exact length_keepFirstFrom_nil (hourlyTimes p)
  · rw [getCols_dropDupBy, getCols_selDF_time]
    simp only [Option.map_some']
    rw [maskFilter_firstMask, keepFirst_eq_scan]
  · intro c hc vs hvs
    have hc3 : c = "pm10" ∨ c = "pm2_5" ∨ c = "uv_index" := by simpa using hc
    have hct : c ≠ "time" := by rcases hc3 with rfl | rfl | rfl <;> decide
    have hcr : c ∈ requiredSourceCols := by
      rcases hc3 with rfl | rfl | rfl <;> simp [requiredSourceCols]
    have hsel : getCols (selDF p executionTs) c = some vs := by
      rcases hc3 with rfl | rfl | rfl
      · simp [selDF, COLUMN_ORDER, getCols, hvs,
          getCols_wideDF_metric p executionTs "pm10" (by simp [requiredSourceCols]) (by decide)]
      · simp [selDF, COLUMN_ORDER, getCols, hvs,
          getCols_wideDF_metric p executionTs "pm2_5" (by simp [requiredSourceCols]) (by decide)]
      · simp [selDF, COLUMN_ORDER, getCols, hvs,
          getCols_wideDF_metric p executionTs "uv_index" (by simp [requiredSourceCols]) (by decide)]
    refine ⟨maskFilter (firstMask [] (hourlyTimes p)) vs, ?_, ?_⟩
    · rw [getCols_dropDupBy, hsel]
      rfl
    · have h1 : ("time", hourlyTimes p) ∈ p.hourly :=
        getCols_mem _ _ _ (getCols_time_eq p (hreq "time" (by simp [requiredSourceCols])))
      have h2 : (c, vs) ∈ p.hourly := getCols_mem _ _ _ hvs
      have hlen : (hourlyTimes p).length = vs.length := equalLens_len _ heq h1 h2
      rw [keepFirst_eq_scan, ← maskFilter_firstMask]
      rw [maskFilter_zip _ _ _ hlen]
      have hfst : ((hourlyTimes p).zip vs).map Prod.fst = hourlyTimes p :=
        List.map_fst_zip _ _ (le_of_eq hlen)
      rw [show firstMask [] (hourlyTimes p) =
            firstMask [] (((hourlyTimes p).zip vs).map Prod.fst) from by rw [hfst]]
      rw [maskFilter_firstMask_rows, keepFirstRows_eq_scan]

/-- Witness for C1 at the repo's own test fixture. -/
theorem enrich_dedup_spec_witness :
    ∃ df, enrich_raw_data samplePayload 77 COLUMN_ORDER = Except.ok df ∧
      nrows df = (hourlyTimes samplePayload).dedup.length ∧
      getCols df "time" = some (keepFirst (hourlyTimes samplePayload)) ∧
      ∀ c ∈ ["pm10", "pm2_5", "uv_index"],
        ∀ vs, getCols samplePayload.hourly c = some vs →
        ∃ ws, getCols df c = some ws ∧
          (keepFirst (hourlyTimes samplePayload)).zip ws =
            keepFirstRows ((hourlyTimes samplePayload).zip vs) :=
  enrich_dedup_spec samplePayload 77 (by decide)

/-! ### Projection and error behaviour of the transform -/

theorem parseTimes_some_eq (vs r : List Value) (h : parseTimes vs = some r) : r = vs := by
  induction vs generalizing r with
  | nil =>
    simp only [parseTimes, Option.some.injEq] at h
    exact h.symm
  | cons v rest ih =>
    cases v with
    | tstamp t =>
      simp only [parseTimes] at h
      cases hp : parseTimes rest with
      | none => rw [hp] at h; simp at h
      | some r' =>
        rw [hp] at h
        simp only [Option.map_some', Option.some.injEq] at h
        rw [← h, ih r' hp]
    | null => simp [parseTimes] at h
    | num q => simp [parseTimes] at h
    | str s => simp [parseTimes] at h
    | date d => simp [parseTimes] at h

theorem enrichWide_ok_eq (p : Payload) (ts : Int) (wide : List (String × List Value))
    (hw : enrichWide p ts = Except.ok wide) :
    wide = wideDF p ts ∧ (getCols p.hourly "time").isSome = true := by
  unfold enrichWide at hw
  by_cases heq : equalLens p.hourly = true
  · simp only [show mkDF p.hourly = Except.ok p.hourly from by simp [mkDF, heq]] at hw
    cases hg : getCols p.hourly "time" with
    | none =>
      simp only [hg] at hw
      exact Except.noConfusion hw
    | some raw =>
      simp only [hg] at hw
      cases hp : parseTimes raw with
      | none =>
        simp only [hp] at hw
        exact Except.noConfusion hw
      | some times =>
        simp only [hp, Except.ok.injEq] at hw
        have hraw : times = raw := parseTimes_some_eq raw times hp
        subst hraw
        have hht : hourlyTimes p = times := by simp [hourlyTimes, hg]
        refine ⟨?_, by simp [hg]⟩
        rw [← hw]
        unfold wideDF
        rw [hht]
  · simp only [show mkDF p.hourly = Except.error TransformError.shape from by
        simp [mkDF, heq]] at hw
    exact Except.noConfusion hw

theorem selectCols_ok_names (h : List (String × List Value)) (cols : List String)
    (sel : List (String × List Value)) (hs : selectCols h cols = Except.ok sel) :
    sel.map Prod.fst = cols := by
  unfold selectCols at hs
  by_cases hcond : cols.all (fun c => (getCols h c).isSome) = true
  · rw [if_pos hcond] at hs
    injection hs with hs
    subst hs
    rw [List.map_map]
    exact List.map_id cols
  · rw [if_neg hcond] at hs
    simp at hs

theorem selectCols_ok_cond (h : List (String × List Value)) (cols : List String)
    (sel : List (String × List Value)) (hs : selectCols h cols = Except.ok sel) :
    ∀ c ∈ cols, (getCols h c).isSome = true := by
  unfold selectCols at hs
  by_cases hcond : cols.all (fun c => (getCols h c).isSome) = true
  · rw [List.all_eq_true] at hcond
    exact fun c hc => hcond c hc
  · rw [if_neg hcond] at hs
    simp at hs

theorem dropDupBy_names (key : List Value) (df : List (String × List Value)) :
    (dropDupBy key df).map Prod.fst = df.map Prod.fst := by
  simp [dropDupBy, List.map_map, Function.comp]

theorem enrich_ok_pieces (p : Payload) (ts : Int) (df : List (String × List Value))
    (hok : enrich_raw_data p ts COLUMN_ORDER = Except.ok df) :
    df = dropDupBy (hourlyTimes p) (selDF p ts) ∧
      selectCols (wideDF p ts) COLUMN_ORDER = Except.ok (selDF p ts) := by
  unfold enrich_raw_data at hok
  cases hw : enrichWide p ts with
  | error e =>
    simp only [hw] at hok
    exact Except.noConfusion hok
  | ok wide =>
    simp only [hw] at hok
    obtain ⟨hwide, _⟩ := enrichWide_ok_eq p ts wide hw
    subst hwide
    cases hs : selectCols (wideDF p ts) COLUMN_ORDER with
    | error e =>
      simp only [hs] at hok
      exact Except.noConfusion hok
    | ok sel =>
      simp only [hs] at hok
      have hsel : sel = selDF p ts := by
        unfold selectCols at hs
        by_cases hcond : COLUMN_ORDER.all (fun c => (getCols (wideDF p ts) c).isSome) = true
        · rw [if_pos hcond] at hs
          injection hs with hs
          rw [← hs]
          rfl
        · rw [if_neg hcond] at hs
          simp at hs
      subst hsel
      simp only [getCols_selDF_time p ts, Except.ok.injEq] at hok
      exact ⟨hok.symm, rfl⟩

theorem enrich_ok_required (p : Payload) (ts : Int) (df : List (String × List Value))
    (hok : enrich_raw_data p ts COLUMN_ORDER = Except.ok df) :
    ∀ c ∈ requiredSourceCols, (getCols p.hourly c).isSome = true := by
  unfold enrich_raw_data at hok
  cases hw : enrichWide p ts with
  | error e =>
    simp only [hw] at hok
    exact Except.noConfusion hok
  | ok wide =>
    simp only [hw] at hok
    obtain ⟨hwide, htsome⟩ := enrichWide_ok_eq p ts wide hw
    subst hwide
    cases hs : selectCols (wideDF p ts) COLUMN_ORDER with
    | error e =>
      simp only [hs] at hok
      exact Except.noConfusion hok
    | ok sel =>
      have hcond := selectCols_ok_cond _ _ _ hs
      intro c hc
      simp only [requiredSourceCols, List.mem_cons, List.not_mem_nil, or_false] at hc
      rcases hc with rfl | rfl | rfl | rfl
      · exact htsome
      · rw [← getCols_wideDF_metric p ts "pm10" (by simp [requiredSourceCols]) (by decide)]
        exact hcond "pm10" (by simp [COLUMN_ORDER])
      · rw [← getCols_wideDF_metric p ts "pm2_5" (by simp [requiredSourceCols]) (by decide)]
        exact hcond "pm2_5" (by simp [COLUMN_ORDER])
      · rw [← getCols_wideDF_metric p ts "uv_index" (by simp [requiredSourceCols]) (by decide)]
        exact hcond "uv_index" (by simp [COLUMN_ORDER])

/-- A payload whose `hourly` block carries an extra field (`ozone`) outside
the canonical column set, with equal-length arrays. -/
def payloadExtra : Payload :=
  { hourly :=
      [("time", [Value.tstamp 0, Value.tstamp 3600000000000]),
       ("pm10", [Value.num 1, Value.num 2]),
       ("pm2_5", [Value.num 1, Value.num 2]),
       ("uv_index", [Value.num 1, Value.num 2]),
       ("ozone", [Value.num 3, Value.num 4])],
    latitude := some (Value.num 52),
    longitude := some (Value.num 13),
    timezone := some (Value.str "UTC") }

/-- C6 counterexample: the claim says the transform fails when the `hourly`
block contains an unknown field not in the canonical set, but on
`payloadExtra` (which carries the unknown field `ozone`) `enrich_raw_data`
succeeds, and the unknown column is silently dropped by the projection. -/
theorem enrich_unknown_field_counterexample :
    "ozone" ∈ payloadExtra.hourly.map Prod.fst ∧
      "ozone" ∉ COLUMN_ORDER ∧
      ∃ df, enrich_raw_data payloadExtra 0 COLUMN_ORDER = Except.ok df ∧
        df.map Prod.fst = COLUMN_ORDER :=
  ⟨by decide, by decide, _, rfl, by decide⟩

/-- C6 (amended): the transform's final projection yields exactly the
canonical columns in their fixed order, and the transform fails with a
`TransformError` when a canonical source column is missing from the
`hourly` block; an unknown field in the `hourly` block is not rejected —
on a well-formed payload the transform succeeds and the projection
silently drops any field outside the canonical set. -/
theorem enrich_projection_spec (p : Payload) (ts : Int) :
    (∀ df, enrich_raw_data p ts COLUMN_ORDER = Except.ok df →
      df.map Prod.fst = COLUMN_ORDER) ∧
    (∀ c ∈ requiredSourceCols, getCols p.hourly c = none →
      ∃ e, enrich_raw_data p ts COLUMN_ORDER = Except.error e) ∧
    (hourlyWF p.hourly = true →
      ∃ df, enrich_raw_data p ts COLUMN_ORDER = Except.ok df) := by
  refine ⟨?_, ?_, ?_⟩
  · intro df hok
    obtain ⟨hdf, hs⟩ := enrich_ok_pieces p ts df hok
    subst hdf
    rw [dropDupBy_names]
    exact selectCols_ok_names _ _ _ hs
  · intro c hc hmiss
    cases hok : enrich_raw_data p ts COLUMN_ORDER with
    | error e => exact ⟨e, rfl⟩
    | ok df =>
      have := enrich_ok_required p ts df hok c hc
      rw [hmiss] at this
      simp at this
  · intro hwf
    exact ⟨_, enrich_wf_eq p ts hwf⟩

/-- Witness for the amended C6 at the extra-field fixture: the projection
keeps exactly the canonical columns, a missing source column is rejected,
and the well-formed payload (with its unknown field) is accepted. -/
theorem enrich_projection_spec_witness :
    (∀ df, enrich_raw_data payloadExtra 0 COLUMN_ORDER = Except.ok df →
      df.map Prod.fst = COLUMN_ORDER) ∧
    (∀ c ∈ requiredSourceCols, getCols payloadExtra.hourly c = none →
      ∃ e, enrich_raw_data payloadExtra 0 COLUMN_ORDER = Except.error e) ∧
    (hourlyWF payloadExtra.hourly = true →
      ∃ df, enrich_raw_data payloadExtra 0 COLUMN_ORDER = Except.ok df) :=
  enrich_projection_spec payloadExtra 0

/-! ### Null-integrity check -/

theorem criticalNull_iff (r : Row) :
    criticalNull r = true ↔
      (r.pm10 = none ∨ r.pm2_5 = none ∨ r.uv_index = none ∨ r.latitude = none ∨
       r.longitude = none ∨ r.timezone = none ∨ r.city = none) := by
  simp only [criticalNull, Bool.or_eq_true, Option.isNone_iff_eq_none]
  tauto

theorem notNulls_error_iff (tbl : List Row) :
    (∃ e, check_not_nulls tbl = Except.error e) ↔ ∃ r ∈ tbl, criticalNull r = true := by
  constructor
  · rintro ⟨e, he⟩
    by_cases hc : 0 < (tbl.filter criticalNull).length
    · obtain ⟨r, hr⟩ := List.exists_mem_of_length_pos hc
      exact ⟨r, (List.mem_filter.mp hr).1, (List.mem_filter.mp hr).2⟩
    · exfalso
      simp only [check_not_nulls, gt_iff_lt] at he
      rw [if_neg hc] at he
      exact Except.noConfusion he
  · rintro ⟨r, hrt, hrc⟩
    have hc : 0 < (tbl.filter criticalNull).length :=
      List.length_pos.mpr (List.ne_nil_of_mem (List.mem_filter.mpr ⟨hrt, hrc⟩))
    refine ⟨QualityError.nulls (tbl.filter criticalNull).length, ?_⟩
    simp only [check_not_nulls, gt_iff_lt]
    rw [if_pos hc]

theorem notNulls_ok (tbl : List Row) (h : ∀ r ∈ tbl, criticalNull r = false) :
    check_not_nulls tbl = Except.ok () := by
  have hf : tbl.filter criticalNull = [] := by
    rw [List.filter_eq_nil_iff]
    intro r hr
    simp [h r hr]
  simp [check_not_nulls, hf]

/-- C5: the null-integrity check raises exactly when some row of the table
has a NULL in one of the seven critical columns, and a table with no such
row passes. -/
theorem check_not_nulls_spec (tbl : List Row) :
    ((∃ e, check_not_nulls tbl = Except.error e) ↔
      ∃ r ∈ tbl, r.pm10 = none ∨ r.pm2_5 = none ∨ r.uv_index = none ∨
        r.latitude = none ∨ r.longitude = none ∨ r.timezone = none ∨ r.city = none) ∧
    ((∀ r ∈ tbl, r.pm10 ≠ none ∧ r.pm2_5 ≠ none ∧ r.uv_index ≠ none ∧
        r.latitude ≠ none ∧ r.longitude ≠ none ∧ r.timezone ≠ none ∧ r.city ≠ none) →
      check_not_nulls tbl = Except.ok ()) := by
  constructor
  · rw [notNulls_error_iff]
    constructor
    · rintro ⟨r, hrt, hrc⟩
      exact ⟨r, hrt, (criticalNull_iff r).mp hrc⟩
    · rintro ⟨r, hrt, hrc⟩
      exact ⟨r, hrt, (criticalNull_iff r).mpr hrc⟩
  · intro h
    apply notNulls_ok
    intro r hr
    obtain ⟨h1, h2, h3, h4, h5, h6, h7⟩ := h r hr
    rw [← Bool.not_eq_true, criticalNull_iff]
    tauto

/-- A fully populated row (all critical columns non-NULL). -/
def fullRow : Row :=
  { time := 0, pm10 := some 10, pm2_5 := some 5, uv_index := some 1,
    latitude := some 48, longitude := some 2, timezone := some "UTC",
    city := some "Paris", date := some 0, execution_time := some 0 }

/-- Witness for C5: a table holding a row with `pm10 = NULL` fails the null
check; remove it and the check passes. -/
theorem check_not_nulls_spec_witness :
    ((∃ e, check_not_nulls [fullRow, { fullRow with time := 1, pm10 := none }] =
        Except.error e) ↔
      ∃ r ∈ [fullRow, { fullRow with time := 1, pm10 := none }],
        r.pm10 = none ∨ r.pm2_5 = none ∨ r.uv_index = none ∨
        r.latitude = none ∨ r.longitude = none ∨ r.timezone = none ∨ r.city = none) ∧
    ((∀ r ∈ [fullRow, { fullRow with time := 1, pm10 := none }],
        r.pm10 ≠ none ∧ r.pm2_5 ≠ none ∧ r.uv_index ≠ none ∧
        r.latitude ≠ none ∧ r.longitude ≠ none ∧ r.timezone ≠ none ∧ r.city ≠ none) →
      check_not_nulls [fullRow, { fullRow with time := 1, pm10 := none }] =
        Except.ok ()) :=
  check_not_nulls_spec [fullRow, { fullRow with time := 1, pm10 := none }]

/-- The repo test fixture with the top-level `latitude` key removed. -/
def samplePayloadNoLat : Payload := { samplePayload with latitude := none }

/-- C9: a payload with a well-formed `hourly` block but lacking `latitude`,
`longitude` or `timezone` is transformed without error, the missing field
becoming NULL in every row of the batch; a table containing any row with a
NULL in one of those columns is then caught by the null-integrity check. -/
theorem enrich_missing_scalar_spec (p : Payload) (ts : Int)
    (hwf : hourlyWF p.hourly = true) :
    (∃ df, enrich_raw_data p ts COLUMN_ORDER = Except.ok df) ∧
    (∀ df, enrich_raw_data p ts COLUMN_ORDER = Except.ok df →
      (p.latitude = none →
        ∃ vs, getCols df "latitude" = some vs ∧ ∀ v ∈ vs, v = Value.null) ∧
      (p.longitude = none →
        ∃ vs, getCols df "longitude" = some vs ∧ ∀ v ∈ vs, v = Value.null) ∧
      (p.timezone = none →
        ∃ vs, getCols df "timezone" = some vs ∧ ∀ v ∈ vs, v = Value.null)) ∧
    (∀ (tbl : List Row) (r : Row), r ∈ tbl →
      r.latitude = none ∨ r.longitude = none ∨ r.timezone = none →
      ∃ e, check_not_nulls tbl = Except.error e) := by
  refine ⟨⟨_, enrich_wf_eq p ts hwf⟩, ?_, ?_⟩
  · intro df hok
    obtain ⟨hdf, _⟩ := enrich_ok_pieces p ts df hok
    subst hdf
    refine ⟨?_, ?_, ?_⟩
    · intro hlat
      refine ⟨maskFilter (firstMask [] (hourlyTimes p))
          (List.replicate (nrows p.hourly) Value.null), ?_, ?_⟩
      · rw [getCols_dropDupBy]
        rw [show getCols (selDF p ts) "latitude" =
              some (List.replicate (nrows p.hourly) (ofOpt p.latitude)) from by
            simp [selDF, COLUMN_ORDER, getCols, getCols_wideDF_latitude]]
        rw [hlat]
        rfl
      · intro v hv
        exact List.eq_of_mem_replicate (mem_maskFilter _ _ _ hv)
    · intro hlong
      refine ⟨maskFilter (firstMask [] (hourlyTimes p))
          (List.replicate (nrows p.hourly) Value.null), ?_, ?_⟩
      · rw [getCols_dropDupBy]
        rw [show getCols (selDF p ts) "longitude" =
              some (List.replicate (nrows p.hourly) (ofOpt p.longitude)) from by
            simp [selDF, COLUMN_ORDER, getCols, getCols_wideDF_longitude]]
        rw [hlong]
        rfl
      · intro v hv
        exact List.eq_of_mem_replicate (mem_maskFilter _ _ _ hv)
    · intro htz
      refine ⟨maskFilter (firstMask [] (hourlyTimes p))
          (List.replicate (nrows p.hourly) Value.null), ?_, ?_⟩
      · rw [getCols_dropDupBy]
        rw [show getCols (selDF p ts) "timezone" =
              some (List.replicate (nrows p.hourly) (ofOpt p.timezone)) from by
            simp [selDF, COLUMN_ORDER, getCols, getCols_wideDF_timezone]]
        rw [htz]
        rfl
      · intro v hv
        exact List.eq_of_mem_replicate (mem_maskFilter _ _ _ hv)
  · intro tbl r hr hnull
    apply (notNulls_error_iff tbl).mpr
    refine ⟨r, hr, ?_⟩
    rcases hnull with h | h | h <;> simp [criticalNull, h]

/-- Witness for C9 at the fixture lacking `latitude`. -/
theorem enrich_missing_scalar_spec_witness :
    (∃ df, enrich_raw_data samplePayloadNoLat 77 COLUMN_ORDER = Except.ok df) ∧
    (∀ df, enrich_raw_data samplePayloadNoLat 77 COLUMN_ORDER = Except.ok df →
      (samplePayloadNoLat.latitude = none →
        ∃ vs, getCols df "latitude" = some vs ∧ ∀ v ∈ vs, v = Value.null) ∧
      (samplePayloadNoLat.longitude = none →
        ∃ vs, getCols df "longitude" = some vs ∧ ∀ v ∈ vs, v = Value.null) ∧
      (samplePayloadNoLat.timezone = none →
        ∃ vs, getCols df "timezone" = some vs ∧ ∀ v ∈ vs, v = Value.null)) ∧
    (∀ (tbl : List Row) (r : Row), r ∈ tbl →
      r.latitude = none ∨ r.longitude = none ∨ r.timezone = none →
      ∃ e, check_not_nulls tbl = Except.error e) :=
  enrich_missing_scalar_spec samplePayloadNoLat 77 (by decide)

/-! ### Upsert semantics of the loader -/

/-- The primary key of `r` is settled in `tbl`: some row carries it, and
every row carrying it is exactly `r`. -/
def keyDone (tbl : List Row) (r : Row) : Prop :=
  (∃ x ∈ tbl, x.time = r.time) ∧ ∀ x ∈ tbl, x.time = r.time → x = r

theorem list_map_self {α : Type} (l : List α) (f : α → α) (h : ∀ x ∈ l, f x = x) :
    l.map f = l := by
  induction l with
  | nil => rfl
  | cons a rest ih =>
    rw [List.map_cons, h a (List.mem_cons_self _ _),
      ih (fun x hx => h x (List.mem_cons_of_mem _ hx))]

theorem upsertRow_of_keyDone (tbl : List Row) (r : Row) (h : keyDone tbl r) :
    upsertRow tbl r = tbl := by
  obtain ⟨⟨x, hx, hxt⟩, hall⟩ := h
  unfold upsertRow
  rw [if_pos (by rw [List.any_eq_true]; exact ⟨x, hx, by simp [hxt]⟩)]
  apply list_map_self
  intro y hy
  by_cases hyt : y.time = r.time
  · simp [hyt, hall y hy hyt]
  · simp [hyt]

theorem keyDone_upsertRow_self (tbl : List Row) (r : Row) :
    keyDone (upsertRow tbl r) r := by
  unfold upsertRow
  by_cases hp : tbl.any (fun x => x.time == r.time) = true
  · rw [if_pos hp]
    constructor
    · obtain ⟨x, hx, hxt⟩ := List.any_eq_true.mp hp
      exact ⟨r, List.mem_map.mpr ⟨x, hx, by simp [beq_iff_eq] at hxt; simp [hxt]⟩, rfl⟩
    · intro y hy hyt
      obtain ⟨x, hx, hfx⟩ := List.mem_map.mp hy
      by_cases hxt : x.time = r.time
      · rw [← hfx]
        simp [hxt]
      · rw [← hfx] at hyt
        rw [if_neg (by simp [hxt])] at hyt
        exact absurd hyt hxt
  · rw [if_neg hp]
    constructor
    · exact ⟨r, List.mem_append.mpr (Or.inr (List.mem_singleton.mpr rfl)), rfl⟩
    · intro y hy hyt
      rcases List.mem_append.mp hy with hyl | hyr
      · exfalso
        exact hp (List.any_eq_true.mpr ⟨y, hyl, by simp [hyt]⟩)
      · simpa using hyr

theorem keyDone_upsertRow_other (tbl : List Row) (r s : Row) (h : keyDone tbl r)
    (hne : s.time ≠ r.time) : keyDone (upsertRow tbl s) r := by
  obtain ⟨⟨x, hx, hxt⟩, hall⟩ := h
  unfold upsertRow
  by_cases hp : tbl.any (fun z => z.time == s.time) = true
  · rw [if_pos hp]
    constructor
    · have hxs : ¬ x.time = s.time := by
        rw [hxt]
        exact fun hh => hne hh.symm
      refine ⟨if x.time == s.time then s else x, List.mem_map_of_mem _ hx, ?_⟩
      rw [if_neg (by simp [hxs])]
      exact hxt
    · intro y hy hyt
      obtain ⟨z, hz, hfz⟩ := List.mem_map.mp hy
      by_cases hzt : z.time = s.time
      · rw [← hfz] at hyt
        simp [hzt] at hyt
        exact absurd hyt hne
      · rw [← hfz] at hyt ⊢
        simp [hzt] at hyt ⊢
        exact hall z hz hyt
  · rw [if_neg hp]
    constructor
    · exact ⟨x, List.mem_append.mpr (Or.inl hx), hxt⟩
    · intro y hy hyt
      rcases List.mem_append.mp hy with hyl | hyr
      · exact hall y hyl hyt
      · rw [List.mem_singleton.mp hyr] at hyt
        exact absurd hyt hne

theorem keyDone_upsertBatch_other (tbl : List Row) (b : List Row) (r : Row)
    (h : keyDone tbl r) (hb : ∀ s ∈ b, s.time ≠ r.time) :
    keyDone (upsertBatch tbl b) r := by
  induction b generalizing tbl with
  | nil => exact h
  | cons s rest ih =>
    exact ih (upsertRow tbl s)
      (keyDone_upsertRow_other tbl r s h (hb s (List.mem_cons_self _ _)))
      (fun z hz => hb z (List.mem_cons_of_mem _ hz))

theorem keyDone_after_batch (tbl batch : List Row)
    (hnd : (batch.map Row.time).Nodup) :
    ∀ r ∈ batch, keyDone (upsertBatch tbl batch) r := by
  induction batch generalizing tbl with
  | nil => intro r hr; cases hr
  | cons s rest ih =>
    simp only [List.map_cons, List.nodup_cons] at hnd
    intro r hr
    rcases List.mem_cons.mp hr with rfl | hr2
    · apply keyDone_upsertBatch_other _ _ _ (keyDone_upsertRow_self tbl r)
      intro z hz hzt
      exact hnd.1 (hzt ▸ List.mem_map_of_mem Row.time hz)
    · exact ih (upsertRow tbl s) hnd.2 r hr2

theorem upsertBatch_of_all_keyDone (tbl : List Row) (b : List Row)
    (h : ∀ r ∈ b, keyDone tbl r) : upsertBatch tbl b = tbl := by
  induction b with
  | nil => rfl
  | cons s rest ih =>
    show upsertBatch (upsertRow tbl s) rest = tbl
    rw [upsertRow_of_keyDone tbl s (h s (List.mem_cons_self _ _))]
    exact ih (fun r hr => h r (List.mem_cons_of_mem _ hr))

theorem upsertBatch_idem (tbl batch : List Row) (hnd : (batch.map Row.time).Nodup) :
    upsertBatch (upsertBatch tbl batch) batch = upsertBatch tbl batch :=
  upsertBatch_of_all_keyDone _ _ (keyDone_after_batch tbl batch hnd)

theorem upsertRow_length_of_mem (tbl : List Row) (r : Row)
    (h : r.time ∈ tbl.map Row.time) : (upsertRow tbl r).length = tbl.length := by
  obtain ⟨x, hx, hxt⟩ := List.mem_map.mp h
  unfold upsertRow
  rw [if_pos (by rw [List.any_eq_true]; exact ⟨x, hx, by simp [hxt]⟩)]
  exact List.length_map _ _

theorem list_map_congr {α β : Type} (l : List α) (f g : α → β)
    (h : ∀ x ∈ l, f x = g x) : l.map f = l.map g := by
  induction l with
  | nil => rfl
  | cons a rest ih =>
    rw [List.map_cons, List.map_cons, h a (List.mem_cons_self _ _),
      ih (fun x hx => h x (List.mem_cons_of_mem _ hx))]

theorem upsertRow_times_of_mem (tbl : List Row) (r : Row)
    (h : r.time ∈ tbl.map Row.time) :
    (upsertRow tbl r).map Row.time = tbl.map Row.time := by
  obtain ⟨x, hx, hxt⟩ := List.mem_map.mp h
  unfold upsertRow
  rw [if_pos (by rw [List.any_eq_true]; exact ⟨x, hx, by simp [hxt]⟩)]
  rw [List.map_map]
  apply list_map_congr
  intro y hy
  by_cases hyt : y.time = r.time
  · simp [Function.comp, hyt]
  · simp [Function.comp, hyt]

theorem upsertRow_times_of_not_mem (tbl : List Row) (r : Row)
    (h : r.time ∉ tbl.map Row.time) :
    (upsertRow tbl r).map Row.time = tbl.map Row.time ++ [r.time] := by
  unfold upsertRow
  rw [if_neg ?_, List.map_append]
  · rfl
  · intro hany
    obtain ⟨x, hx, hxt⟩ := List.any_eq_true.mp hany
    simp only [beq_iff_eq] at hxt
    exact h (hxt ▸ List.mem_map_of_mem Row.time hx)

theorem upsertBatch_times (tbl batch : List Row)
    (hb : (batch.map Row.time).Nodup) :
    (upsertBatch tbl batch).map Row.time =
      tbl.map Row.time ++
        (batch.map Row.time).filter
          (fun k => !(tbl.map Row.time).contains k) := by
  induction batch generalizing tbl with
  | nil => simp [upsertBatch]
  | cons s rest ih =>
    simp only [List.map_cons, List.nodup_cons] at hb
    show (upsertBatch (upsertRow tbl s) rest).map Row.time = _
    by_cases hm : s.time ∈ tbl.map Row.time
    · have hc : (tbl.map Row.time).contains s.time = true := List.elem_iff.mpr hm
      rw [ih (upsertRow tbl s) hb.2, upsertRow_times_of_mem tbl s hm,
        List.map_cons, List.filter_cons, if_neg (by rw [hc]; decide)]
    · have hc : (tbl.map Row.time).contains s.time = false := by
        rw [← Bool.not_eq_true]
        exact fun hh => hm (List.elem_iff.mp hh)
      rw [ih (upsertRow tbl s) hb.2, upsertRow_times_of_not_mem tbl s hm,
        List.map_cons, List.filter_cons, if_pos (by rw [hc]; decide)]
      rw [List.append_assoc, List.singleton_append]
      congr 1
      congr 1
      apply List.filter_congr
      intro k hk
      have hks : k ≠ s.time := fun hh => hb.1 (hh ▸ hk)
      by_cases hkt : k ∈ tbl.map Row.time
      · have h1 : (tbl.map Row.time ++ [s.time]).contains k = true :=
          List.elem_iff.mpr (List.mem_append.mpr (Or.inl hkt))
        have h2 : (tbl.map Row.time).contains k = true := List.elem_iff.mpr hkt
        rw [h1, h2]
      · have h1 : (tbl.map Row.time ++ [s.time]).contains k = false := by
          rw [← Bool.not_eq_true]
          intro hh
          rcases List.mem_append.mp (List.elem_iff.mp hh) with h3 | h3
          · exact hkt h3
          · exact hks (List.mem_singleton.mp h3)
        have h2 : (tbl.map Row.time).contains k = false := by
          rw [← Bool.not_eq_true]
          exact fun hh => hkt (List.elem_iff.mp hh)
        rw [h1, h2]

theorem key_count_lemma (A B : List Int) (hA : A.Nodup) (hB : B.Nodup) :
    A.length + (B.filter (fun k => !A.contains k)).length =
      (A.filter (fun k => !B.contains k)).length + B.length := by
  have hBA : (B.filter (fun k => !A.contains k)).toFinset = B.toFinset \ A.toFinset := by
    ext k
    simp only [List.toFinset_filter, Finset.mem_filter, Finset.mem_sdiff, List.mem_toFinset]
    constructor
    · rintro ⟨h1, h2⟩
      refine ⟨h1, fun hk => ?_⟩
      have hck : A.contains k = true := List.elem_iff.mpr hk
      rw [hck] at h2
      simp at h2
    · rintro ⟨h1, h2⟩
      refine ⟨h1, ?_⟩
      have hc : A.contains k = false := by
        rw [← Bool.not_eq_true]
        exact fun hh => h2 (List.elem_iff.mp hh)
      rw [hc]
      rfl
  have hAB : (A.filter (fun k => !B.contains k)).toFinset = A.toFinset \ B.toFinset := by
    ext k
    simp only [List.toFinset_filter, Finset.mem_filter, Finset.mem_sdiff, List.mem_toFinset]
    constructor
    · rintro ⟨h1, h2⟩
      refine ⟨h1, fun hk => ?_⟩
      have hck : B.contains k = true := List.elem_iff.mpr hk
      rw [hck] at h2
      simp at h2
    · rintro ⟨h1, h2⟩
      refine ⟨h1, ?_⟩
      have hc : B.contains k = false := by
        rw [← Bool.not_eq_true]
        exact fun hh => h2 (List.elem_iff.mp hh)
      rw [hc]
      rfl
  have l1 : (B.filter (fun k => !A.contains k)).length = (B.toFinset \ A.toFinset).card := by
    rw [← hBA, List.toFinset_card_of_nodup (hB.filter _)]
  have l2 : (A.filter (fun k => !B.contains k)).length = (A.toFinset \ B.toFinset).card := by
    rw [← hAB, List.toFinset_card_of_nodup (hA.filter _)]
  have l3 : A.length = A.toFinset.card := (List.toFinset_card_of_nodup hA).symm
  have l4 : B.length = B.toFinset.card := (List.toFinset_card_of_nodup hB).symm
  rw [l1, l2, l3, l4]
  have e1 : (B.toFinset \ A.toFinset).card + A.toFinset.card =
      (B.toFinset ∪ A.toFinset).card := Finset.card_sdiff_add_card _ _
  have e2 : (A.toFinset \ B.toFinset).card + B.toFinset.card =
      (A.toFinset ∪ B.toFinset).card := Finset.card_sdiff_add_card _ _
  rw [Finset.union_comm] at e1
  omega

/-- C2: loading the same canonical batch twice (unique `time` values within
the batch) leaves the table with exactly the same content and row count as
loading it once, and upserting a row whose `time` is already present
replaces the existing row in place instead of adding a duplicate. -/
theorem load_idem_spec (tbl batch : List Row) (hb : (batch.map Row.time).Nodup) :
    load_dataframe (load_dataframe tbl batch).1 batch = load_dataframe tbl batch ∧
    ∀ r : Row, r.time ∈ tbl.map Row.time →
      (load_dataframe tbl [r]).1.length = tbl.length ∧
      r ∈ (load_dataframe tbl [r]).1 ∧
      ∀ x ∈ (load_dataframe tbl [r]).1, x.time = r.time → x = r := by
  constructor
  · simp [load_dataframe, upsertBatch_idem tbl batch hb]
  · intro r hr
    have hup : (load_dataframe tbl [r]).1 = upsertRow tbl r := rfl
    rw [hup]
    have hkd := keyDone_upsertRow_self tbl r
    refine ⟨upsertRow_length_of_mem tbl r hr, ?_, hkd.2⟩
    obtain ⟨x, hx, hxt⟩ := hkd.1
    exact hkd.2 x hx hxt ▸ hx

/-- A two-row table state (times one hour apart, in nanoseconds). -/
def sampleTable : List Row :=
  [fullRow, { fullRow with time := 3600000000000 }]

/-- A canonical batch: one row replacing `fullRow`'s timestamp with a new
measurement, one row at a fresh timestamp. -/
def sampleBatch : List Row :=
  [{ fullRow with pm10 := some 11 }, { fullRow with time := 7200000000000 }]

/-- Witness for C2 at a concrete table and batch. -/
theorem load_idem_spec_witness :
    load_dataframe (load_dataframe sampleTable sampleBatch).1 sampleBatch =
      load_dataframe sampleTable sampleBatch ∧
    ∀ r : Row, r.time ∈ sampleTable.map Row.time →
      (load_dataframe sampleTable [r]).1.length = sampleTable.length ∧
      r ∈ (load_dataframe sampleTable [r]).1 ∧
      ∀ x ∈ (load_dataframe sampleTable [r]).1, x.time = r.time → x = r :=
  load_idem_spec sampleTable sampleBatch (by decide)

/-- C7: `load_dataframe` returns the row count of the destination table
after the upsert — the pre-existing rows whose `time` was not replaced plus
every row of the batch — not merely the size of the batch just inserted. -/
theorem load_rowcount_spec (tbl batch : List Row)
    (htbl : (tbl.map Row.time).Nodup) (hb : (batch.map Row.time).Nodup) :
    (load_dataframe tbl batch).2 = (load_dataframe tbl batch).1.length ∧
    (load_dataframe tbl batch).2 =
      (tbl.filter (fun x => !((batch.map Row.time).contains x.time))).length +
        batch.length := by
  refine ⟨rfl, ?_⟩
  show (upsertBatch tbl batch).length = _
  have h1 : (upsertBatch tbl batch).length =
      (tbl.map Row.time).length +
        ((batch.map Row.time).filter (fun k => !(tbl.map Row.time).contains k)).length := by
    rw [← List.length_map (upsertBatch tbl batch) Row.time,
      upsertBatch_times tbl batch hb, List.length_append]
  have h2 : (tbl.filter (fun x => !((batch.map Row.time).contains x.time))).length =
      ((tbl.map Row.time).filter (fun k => !((batch.map Row.time).contains k))).length := by
    rw [List.filter_map, List.length_map]
    rfl
  rw [List.length_map] at h1
  have hkey := key_count_lemma (tbl.map Row.time) (batch.map Row.time) htbl hb
  simp only [List.length_map] at hkey
  rw [h1, h2]
  omega

/-- Witness for C7 at a concrete table and batch: one batch row replaces an
existing timestamp, the other is new, so the count is 2 + 1 = 3. -/
theorem load_rowcount_spec_witness :
    (load_dataframe sampleTable sampleBatch).2 =
      (load_dataframe sampleTable sampleBatch).1.length ∧
    (load_dataframe sampleTable sampleBatch).2 =
      (sampleTable.filter
          (fun x => !((sampleBatch.map Row.time).contains x.time))).length +
        sampleBatch.length :=
  load_rowcount_spec sampleTable sampleBatch (by decide) (by decide)

/-! ### Completeness check -/

theorem mem_distinctDates (tbl : List Row) (d : Option Int) :
    d ∈ distinctDates tbl ↔ ∃ r ∈ tbl, r.date = d := by
  simp [distinctDates, List.mem_dedup, List.mem_map]

theorem completenessFailures_mem (tbl : List Row) (x : Option Int × Nat × Nat) :
    x ∈ completenessFailures tbl ↔
      x.1 ∈ distinctDates tbl ∧ x.2.1 = (rowsForDate tbl x.1).length ∧
        x.2.2 = distinctTimes tbl x.1 ∧ (x.2.1 ≠ 24 ∨ x.2.2 ≠ 24) := by
  obtain ⟨d, rc, dt⟩ := x
  unfold completenessFailures
  rw [List.mem_filterMap]
  constructor
  · rintro ⟨a, ha, hx⟩
    by_cases hcond : (rowsForDate tbl a).length ≠ 24 ∨ distinctTimes tbl a ≠ 24
    · rw [if_pos hcond] at hx
      injection hx with hx
      simp only [Prod.mk.injEq] at hx
      obtain ⟨rfl, rfl, rfl⟩ := hx
      exact ⟨ha, rfl, rfl, hcond⟩
    · rw [if_neg hcond] at hx
      exact Option.noConfusion hx
  · rintro ⟨hd, h1, h2, h3⟩
    dsimp only at hd h1 h2 h3
    refine ⟨d, hd, ?_⟩
    subst h1
    subst h2
    rw [if_pos h3]

theorem check_completeness_error_iff (tbl : List Row) :
    (∃ e, check_completeness tbl = Except.error e) ↔ completenessFailures tbl ≠ [] := by
  unfold check_completeness
  by_cases h : (completenessFailures tbl).isEmpty = true
  · rw [if_pos h]
    rw [List.isEmpty_iff] at h
    constructor
    · rintro ⟨e, he⟩
      exact Except.noConfusion he
    · intro hne
      exact absurd h hne
  · rw [if_neg h]
    constructor
    · intro _ hnil
      exact h (by rw [hnil]; rfl)
    · intro _
      exact ⟨QualityError.completeness (completenessFailures tbl), rfl⟩

theorem rowsForDate_times_nodup (tbl : List Row) (htbl : (tbl.map Row.time).Nodup)
    (d : Option Int) : ((rowsForDate tbl d).map Row.time).Nodup :=
  ((List.filter_sublist tbl).map Row.time).nodup htbl

theorem distinctTimes_eq_length (tbl : List Row) (htbl : (tbl.map Row.time).Nodup)
    (d : Option Int) : distinctTimes tbl d = (rowsForDate tbl d).length := by
  unfold distinctTimes
  rw [List.dedup_eq_self.mpr (rowsForDate_times_nodup tbl htbl d), List.length_map]

/-- C3: the completeness check fails exactly when some `date` present in the
table does not have exactly 24 rows or exactly 24 distinct `time` values;
the raised error lists, for each offending date, its
`(date, row count, distinct time count)` tuple; and under the primary-key
invariant a table whose every date has exactly 24 distinct timestamps
passes. -/
theorem check_completeness_spec (tbl : List Row) (htbl : (tbl.map Row.time).Nodup) :
    ((∃ e, check_completeness tbl = Except.error e) ↔
      ∃ d, (∃ r ∈ tbl, r.date = d) ∧
        ((rowsForDate tbl d).length ≠ 24 ∨ distinctTimes tbl d ≠ 24)) ∧
    (∀ fs, check_completeness tbl = Except.error (QualityError.completeness fs) →
      ∀ x, x ∈ fs ↔ x.1 ∈ distinctDates tbl ∧
        x.2.1 = (rowsForDate tbl x.1).length ∧ x.2.2 = distinctTimes tbl x.1 ∧
        (x.2.1 ≠ 24 ∨ x.2.2 ≠ 24)) ∧
    ((∀ d, (∃ r ∈ tbl, r.date = d) → distinctTimes tbl d = 24) →
      check_completeness tbl = Except.ok ()) := by
  refine ⟨?_, ?_, ?_⟩
  · rw [check_completeness_error_iff]
    constructor
    · intro hne
      obtain ⟨x, hx⟩ := List.exists_mem_of_ne_nil _ hne
      rw [completenessFailures_mem] at hx
      refine ⟨x.1, (mem_distinctDates tbl x.1).mp hx.1, ?_⟩
      rcases hx.2.2.2 with h | h
      · exact Or.inl (by rw [← hx.2.1]; exact h)
      · exact Or.inr (by rw [← hx.2.2.1]; exact h)
    · rintro ⟨d, hd, hcond⟩ hnil
      have hm : (d, (rowsForDate tbl d).length, distinctTimes tbl d) ∈
          completenessFailures tbl := by
        rw [completenessFailures_mem]
        exact ⟨(mem_distinctDates tbl d).mpr hd, rfl, rfl, hcond⟩
      rw [hnil] at hm
      cases hm
  · intro fs hfs x
    have hfe : fs = completenessFailures tbl := by
      unfold check_completeness at hfs
      by_cases h : (completenessFailures tbl).isEmpty = true
      · rw [if_pos h] at hfs
        exact Except.noConfusion hfs
      · rw [if_neg h] at hfs
        injection hfs with hfs
        injection hfs with hfs
        exact hfs.symm
    subst hfe
    exact completenessFailures_mem tbl x
  · intro hall
    have hnil : completenessFailures tbl = [] := by
      unfold completenessFailures
      rw [List.filterMap_eq_nil_iff]
      intro d hd
      have hdt : distinctTimes tbl d = 24 := hall d ((mem_distinctDates tbl d).mp hd)
      have hrc : (rowsForDate tbl d).length = 24 := by
        rw [← distinctTimes_eq_length tbl htbl d]
        exact hdt
      rw [if_neg]
      simp [hrc, hdt]
    unfold check_completeness
    rw [if_pos (by rw [hnil]; rfl)]

/-- A table holding one full UTC day: 24 hourly rows, all on the same date,
with distinct timestamps. -/
def fullDayTable : List Row :=
  (List.range 24).map (fun i => { fullRow with time := 3600000000000 * (i : Int) })

/-- Witness for C3 at the full-day table. -/
theorem check_completeness_spec_witness :
    ((∃ e, check_completeness fullDayTable = Except.error e) ↔
      ∃ d, (∃ r ∈ fullDayTable, r.date = d) ∧
        ((rowsForDate fullDayTable d).length ≠ 24 ∨
          distinctTimes fullDayTable d ≠ 24)) ∧
    (∀ fs, check_completeness fullDayTable =
        Except.error (QualityError.completeness fs) →
      ∀ x, x ∈ fs ↔ x.1 ∈ distinctDates fullDayTable ∧
        x.2.1 = (rowsForDate fullDayTable x.1).length ∧
        x.2.2 = distinctTimes fullDayTable x.1 ∧
        (x.2.1 ≠ 24 ∨ x.2.2 ≠ 24)) ∧
    ((∀ d, (∃ r ∈ fullDayTable, r.date = d) →
        distinctTimes fullDayTable d = 24) →
      check_completeness fullDayTable = Except.ok ()) :=
  check_completeness_spec fullDayTable (by decide)

/-! ### Range check -/

theorem outside_iff (v : Option ℚ) (hi : ℚ) :
    (match v with
      | some q => decide (q < 0) || decide (q > hi)
      | none => false) = true ↔ ∃ q, v = some q ∧ ¬(0 ≤ q ∧ q ≤ hi) := by
  cases v with
  | none => simp
  | some q =>
    show (decide (q < 0) || decide (q > hi)) = true ↔ _
    constructor
    · intro h
      simp only [Bool.or_eq_true, decide_eq_true_eq] at h
      refine ⟨q, rfl, fun hc => ?_⟩
      rcases h with h | h
      · exact absurd hc.1 (not_le.mpr h)
      · exact absurd hc.2 (not_le.mpr h)
    · rintro ⟨q', hq', hc⟩
      injection hq' with hq'
      subst hq'
      simp only [Bool.or_eq_true, decide_eq_true_eq]
      by_cases h0 : 0 ≤ q
      · by_cases h5 : q ≤ hi
        · exact absurd ⟨h0, h5⟩ hc
        · exact Or.inr (lt_of_not_le h5)
      · exact Or.inl (lt_of_not_le h0)

/-- C4: the range check counts, per metric, the rows whose value lies
outside the closed interval — `[0, 500]` for `pm10` and `pm2_5`, `[0, 15]`
for `uv_index`, boundaries inclusive — and raises listing exactly the
metrics with a nonzero count if and only if at least one count is
nonzero. -/
theorem check_ranges_spec (tbl : List Row) :
    (∀ r : Row, pm10Outside r = true ↔
      ∃ q, r.pm10 = some q ∧ ¬(0 ≤ q ∧ q ≤ 500)) ∧
    (∀ r : Row, pm25Outside r = true ↔
      ∃ q, r.pm2_5 = some q ∧ ¬(0 ≤ q ∧ q ≤ 500)) ∧
    (∀ r : Row, uvOutside r = true ↔
      ∃ q, r.uv_index = some q ∧ ¬(0 ≤ q ∧ q ≤ 15)) ∧
    ((∃ e, check_ranges tbl = Except.error e) ↔
      0 < (tbl.filter pm10Outside).length ∨
        0 < (tbl.filter pm25Outside).length ∨
        0 < (tbl.filter uvOutside).length) ∧
    (∀ fs, check_ranges tbl = Except.error (QualityError.ranges fs) →
      fs = (rangeViolations tbl).filter (fun mn => 0 < mn.2)) := by
  refine ⟨fun r => outside_iff r.pm10 500, fun r => outside_iff r.pm2_5 500,
    fun r => outside_iff r.uv_index 15, ?_, ?_⟩
  · by_cases h1 : 0 < (tbl.filter pm10Outside).length <;>
      by_cases h2 : 0 < (tbl.filter pm25Outside).length <;>
        by_cases h3 : 0 < (tbl.filter uvOutside).length <;>
          simp [check_ranges, rangeViolations, List.filter_cons, h1, h2, h3]
  · intro fs hfs
    simp only [check_ranges] at hfs
    by_cases h : ((rangeViolations tbl).filter (fun mn => mn.2 > 0)).isEmpty = true
    · rw [if_pos h] at hfs
      exact Except.noConfusion hfs
    · rw [if_neg h] at hfs
      injection hfs with hfs
      injection hfs with hfs
      exact hfs.symm

/-- Two rows exercising the `uv_index` boundary: 15 is inside the range,
16 outside. -/
def uvBoundaryTable : List Row :=
  [{ fullRow with uv_index := some 15 },
   { fullRow with time := 3600000000000, uv_index := some 16 }]

/-- Witness for C4 at the boundary table. -/
theorem check_ranges_spec_witness :
    (∀ r : Row, pm10Outside r = true ↔
      ∃ q, r.pm10 = some q ∧ ¬(0 ≤ q ∧ q ≤ 500)) ∧
    (∀ r : Row, pm25Outside r = true ↔
      ∃ q, r.pm2_5 = some q ∧ ¬(0 ≤ q ∧ q ≤ 500)) ∧
    (∀ r : Row, uvOutside r = true ↔
      ∃ q, r.uv_index = some q ∧ ¬(0 ≤ q ∧ q ≤ 15)) ∧
    ((∃ e, check_ranges uvBoundaryTable = Except.error e) ↔
      0 < (uvBoundaryTable.filter pm10Outside).length ∨
        0 < (uvBoundaryTable.filter pm25Outside).length ∨
        0 < (uvBoundaryTable.filter uvOutside).length) ∧
    (∀ fs, check_ranges uvBoundaryTable = Except.error (QualityError.ranges fs) →
      fs = (rangeViolations uvBoundaryTable).filter (fun mn => 0 < mn.2)) :=
  check_ranges_spec uvBoundaryTable

/-! ### Column-order consistency and the record round trip -/

/-- C8: the canonical column order is identical in the three places it
appears — the `CREATE TABLE` layout of `ensure_air_quality_table`, the
column order of the dataframe produced by `enrich_raw_data`, and the
projection used by `load_dataframe` before its positional
`INSERT OR REPLACE ... SELECT *` — and equals the fixed ten-column list. -/
theorem column_order_spec :
    createTableColumns = COLUMN_ORDER ∧
    loadColumns = COLUMN_ORDER ∧
    (∀ (p : Payload) (ts : Int) (df : List (String × List Value)),
      enrich_raw_data p ts COLUMN_ORDER = Except.ok df →
        df.map Prod.fst = COLUMN_ORDER) ∧
    COLUMN_ORDER = ["time", "pm10", "pm2_5", "uv_index", "latitude",
      "longitude", "timezone", "city", "date", "execution_time"] := by
  refine ⟨rfl, rfl, ?_, rfl⟩
  intro p ts df hok
  obtain ⟨hdf, hs⟩ := enrich_ok_pieces p ts df hok
  subst hdf
  rw [dropDupBy_names]
  exact selectCols_ok_names _ _ _ hs

/-- Witness for C8: the dataframe-column conjunct applied at the repo test
fixture. -/
theorem column_order_spec_witness :
    createTableColumns = COLUMN_ORDER ∧
    loadColumns = COLUMN_ORDER ∧
    (∀ df, enrich_raw_data samplePayload 77 COLUMN_ORDER = Except.ok df →
      df.map Prod.fst = COLUMN_ORDER) ∧
    COLUMN_ORDER = ["time", "pm10", "pm2_5", "uv_index", "latitude",
      "longitude", "timezone", "city", "date", "execution_time"] :=
  ⟨column_order_spec.1, column_order_spec.2.1,
    fun df h => column_order_spec.2.2.1 samplePayload 77 df h,
    column_order_spec.2.2.2⟩

/-- C10: serializing a record in the `enrich` task (the
`%Y-%m-%dT%H:%M:%SZ` strings for `time` and `execution_time`, the date
string for `date`) and parsing it back in the `load` task truncates the two
timestamps to whole seconds and leaves every other field unchanged; when
both timestamps have zero sub-second component the round trip reproduces
the record exactly. -/
theorem record_roundtrip_spec (r : Row) :
    (parseRecord (serializeRecord r)).time =
      r.time - r.time.emod nsPerSecond ∧
    (parseRecord (serializeRecord r)).execution_time =
      r.execution_time.map (fun t => t - t.emod nsPerSecond) ∧
    (parseRecord (serializeRecord r)).date = r.date ∧
    (parseRecord (serializeRecord r)).pm10 = r.pm10 ∧
    (parseRecord (serializeRecord r)).pm2_5 = r.pm2_5 ∧
    (parseRecord (serializeRecord r)).uv_index = r.uv_index ∧
    (parseRecord (serializeRecord r)).latitude = r.latitude ∧
    (parseRecord (serializeRecord r)).longitude = r.longitude ∧
    (parseRecord (serializeRecord r)).timezone = r.timezone ∧
    (parseRecord (serializeRecord r)).city = r.city ∧
    (r.time.emod nsPerSecond = 0 →
      (∀ t, r.execution_time = some t → t.emod nsPerSecond = 0) →
      parseRecord (serializeRecord r) = r) := by
  have htime : ∀ t : Int, t.ediv nsPerSecond * nsPerSecond = t - t.emod nsPerSecond := by
    intro t
    show t.ediv 1000000000 * 1000000000 = t - t.emod 1000000000
    rw [show t.ediv (1000000000 : Int) = t / 1000000000 from rfl,
      show t.emod (1000000000 : Int) = t % 1000000000 from rfl]
    omega
  refine ⟨?_, ?_, rfl, rfl, rfl, rfl, rfl, rfl, rfl, rfl, ?_⟩
  · simp only [parseRecord, serializeRecord]
    exact htime r.time
  · simp only [parseRecord, serializeRecord, Option.map_map]
    cases r.execution_time with
    | none => rfl
    | some t =>
      simp only [Option.map_some', Function.comp, Option.some.injEq]
      exact htime t
  · intro ht he
    have h1 : r.time.ediv nsPerSecond * nsPerSecond = r.time := by
      rw [htime r.time, ht, Int.sub_zero]
    have h2 : r.execution_time.map (fun t => (t.ediv nsPerSecond) * nsPerSecond) =
        r.execution_time := by
      cases hc : r.execution_time with
      | none => rfl
      | some t =>
        simp only [Option.map_some', Option.some.injEq]
        rw [htime t, he t hc, Int.sub_zero]
    have hform : parseRecord (serializeRecord r) =
        { r with time := r.time.ediv nsPerSecond * nsPerSecond,
                 execution_time :=
                   r.execution_time.map (fun t => (t.ediv nsPerSecond) * nsPerSecond) } := by
      simp only [parseRecord, serializeRecord, Option.map_map]
      rfl
    rw [hform, h1, h2]

/-- Witness for C10: a record with whole-second timestamps survives the
round trip exactly. -/
theorem record_roundtrip_spec_witness :
    parseRecord (serializeRecord fullRow) = fullRow :=
  (record_roundtrip_spec fullRow).2.2.2.2.2.2.2.2.2.2 (by decide)
    (fun t h => by
      have ht : t = 0 := by
        have h0 : (some 0 : Option Int) = some t := h
        injection h0 with h2
        exact h2.symm
      rw [ht]
      decide)

end AirQuality
